import Mathlib

/-!
Mood Aggregation & Synchronization Engine — verification development.

Shallow embedding of the mood-engine logic of the Youth-Mental-wellness-Ai
repository (files `src/pages/Zenora.tsx`, `src/pages/Insights.tsx`,
`src/pages/Dashboard.tsx`, `src/pages/MoodContext.tsx`) together with
theorems settling the specification's testable properties.

Modelling conventions:
* JS strings are Lean `String`s; the classifier works on their `.data`
  character lists (`message.toLowerCase()` / `String.prototype.includes`).
* JS numbers that are integer-valued in this code (mood scores, intensities,
  day indices) are `Int`; the one fractional computation
  (`(moodScore / 100) * 5` and `toFixed(1)`) is modelled exactly in `ℚ`,
  with `round` matching `Math.round`/`toFixed`'s round-half-up on these
  inputs.
* Calendar dates (`toDateString` / `toISOString().split("T")[0]` values) are
  day indices in `Int`; moving a `Date` back one calendar day is `- 1`.
* `localStorage` is an association list of string keys to string values;
  `JSON.stringify` / `JSON.parse` for the persisted `zenora-mood` record are
  modelled by a concrete character-level printer and parser below.
-/

/-! ## Local classifier (`Zenora.tsx`, `analyzeLocalMood`) -/

/-- Result record of `analyzeLocalMood`: `{ emoji, mood, score }`. -/
structure LocalMood where
  emoji : String
  mood : String
  score : Int
deriving DecidableEq

/-- Substring test: `needle` occurs as a contiguous substring of `hay`
(JS `String.prototype.includes` on the underlying character sequences). -/
def listIncludes (hay needle : List Char) : Bool :=
  match hay with
  | [] => needle.isEmpty
  | _ :: t => needle.isPrefixOf hay || listIncludes t needle

/-- JS `hay.includes(needle)`. -/
def includes (hay needle : String) : Bool :=
  listIncludes hay.data needle.data

/-- JS `String.prototype.toLowerCase` (agrees with it on ASCII, which covers
every keyword the classifier tests). -/
def jsToLower (s : String) : String :=
  String.mk (s.data.map Char.toLower)

/-- `Zenora.tsx` lines 101–114: ordered keyword rules; first match wins,
no-match falls through to the neutral result. -/
def analyzeLocalMood (message : String) : LocalMood :=
  let lower := jsToLower message
  if includes lower "sad" || includes lower "tired" || includes lower "upset" then
    ⟨"😔", "Sad", 45⟩
  else if includes lower "angry" || includes lower "mad" then
    ⟨"😡", "Angry", 35⟩
  else if includes lower "happy" || includes lower "great" || includes lower "good" then
    ⟨"😊", "Happy", 85⟩
  else if includes lower "anxious" || includes lower "worried" then
    ⟨"😰", "Anxious", 55⟩
  else if includes lower "relax" || includes lower "calm" then
    ⟨"😌", "Calm", 80⟩
  else
    ⟨"🙂", "Neutral", 70⟩

/-- No keyword of any rule occurs in the lowercased text. -/
def noKeywordMatches (s : String) : Prop :=
  includes (jsToLower s) "sad" = false ∧ includes (jsToLower s) "tired" = false ∧
  includes (jsToLower s) "upset" = false ∧ includes (jsToLower s) "angry" = false ∧
  includes (jsToLower s) "mad" = false ∧ includes (jsToLower s) "happy" = false ∧
  includes (jsToLower s) "great" = false ∧ includes (jsToLower s) "good" = false ∧
  includes (jsToLower s) "anxious" = false ∧ includes (jsToLower s) "worried" = false ∧
  includes (jsToLower s) "relax" = false ∧ includes (jsToLower s) "calm" = false

instance (s : String) : Decidable (noKeywordMatches s) := by
  unfold noKeywordMatches; infer_instance

/-- C1, counterexample: The claim as stated is false: on
`"I feel sad and tired"` the classifier's label is the capitalized `"Sad"`,
not the string `"sad"`. -/
theorem c1_label_not_lowercase :
    (analyzeLocalMood "I feel sad and tired").mood ≠ "sad" := by
  decide

/-- C1, amended claim: For any text whose lowercase form contains a rule-1
keyword (`sad`, `tired`, `upset`), the classifier returns the rule-1 result
`⟨"😔", "Sad", 45⟩` — label `"Sad"` (capitalized as the code writes it) with
score 45 — regardless of which later-rule keywords also occur; in particular
this settles `"I feel sad and tired"`. -/
theorem c1_first_rule_wins (s : String)
    (h : includes (jsToLower s) "sad" = true ∨ includes (jsToLower s) "tired" = true ∨
      includes (jsToLower s) "upset" = true) :
    analyzeLocalMood s = ⟨"😔", "Sad", 45⟩ := by
  rcases h with h | h | h <;> simp [analyzeLocalMood, h]

/-- C1, witness: The amended claim, instantiated at the spec's input. -/
theorem c1_first_rule_wins_witness :
    includes (jsToLower "I feel sad and tired") "sad" = true ∧
    analyzeLocalMood "I feel sad and tired" = ⟨"😔", "Sad", 45⟩ :=
  ⟨by decide, c1_first_rule_wins "I feel sad and tired" (Or.inl (by decide))⟩

/-- C2, counterexample: The claim as stated is false: for the empty
string (which matches no keyword) the fallback label is the capitalized
`"Neutral"`, not the string `"neutral"`. -/
theorem c2_label_not_lowercase :
    (analyzeLocalMood "").mood ≠ "neutral" := by
  decide

/-- C2, amended claim: The classifier is total by construction (a Lean
function over all of `String`), and whenever no keyword of any rule occurs
in the lowercased text — the empty string included — it returns the fixed
fallback `⟨"🙂", "Neutral", 70⟩`: label `"Neutral"` (capitalized as the code
writes it) with score 70. -/
theorem c2_neutral_fallback (s : String) (h : noKeywordMatches s) :
    analyzeLocalMood s = ⟨"🙂", "Neutral", 70⟩ := by
  obtain ⟨h1, h2, h3, h4, h5, h6, h7, h8, h9, h10, h11, h12⟩ := h
  simp [analyzeLocalMood, h1, h2, h3, h4, h5, h6, h7, h8, h9, h10, h11, h12]

/-- C2, witness: The amended claim at the empty string. -/
theorem c2_neutral_fallback_witness :
    noKeywordMatches "" ∧ analyzeLocalMood "" = ⟨"🙂", "Neutral", 70⟩ :=
  ⟨by decide, c2_neutral_fallback "" (by decide)⟩

/-! ## Mood history entries and the 7-day average (`Insights.tsx`) -/

/-- One entry of Insights' `moodData` history (interface `MoodEntry`
in `Insights.tsx`): a calendar date (as a day index), the display mood
string, and a numeric value. -/
structure MoodEntry where
  date : Int
  mood : String
  value : Int
deriving DecidableEq

/-- Function `calculateAverageMood` of `Insights.tsx` lines 25–29: 0 for an
empty history, otherwise the mean of the `value` fields rounded to one
decimal (`parseFloat((sum / data.length).toFixed(1))`; on these inputs
`toFixed(1)` is exact round-half-up to tenths, which `round` matches). -/
def calculateAverageMood (data : List MoodEntry) : ℚ :=
  if data.length = 0 then 0
  else ((round ((((data.map (fun d => d.value)).sum : Int) : ℚ) / data.length * 10) : ℤ) : ℚ) / 10

/-- Rounding to one decimal place, stated as the specification words it. -/
def roundToOneDecimal (q : ℚ) : ℚ := ((round (q * 10) : ℤ) : ℚ) / 10

/-- Arithmetic mean of the entries' numeric values, stated as the
specification words it. -/
def meanValue (data : List MoodEntry) : ℚ :=
  (data.map (fun d => (d.value : ℚ))).sum / data.length

/-- Specification-side average: mean rounded to one decimal, with sentinel 0
for the empty history. -/
def averageScoreSpec (data : List MoodEntry) : ℚ :=
  if data.length = 0 then 0 else roundToOneDecimal (meanValue data)

/-- C3: for every history of at most 7 entries, `calculateAverageMood`
equals the arithmetic mean of the entries' values rounded to one decimal
place, and on the empty history it is the fixed sentinel 0 (the guard
returns before any division, so no NaN-like value can arise). -/
theorem c3_average_is_rounded_mean (H : List MoodEntry) (h : H.length ≤ 7) :
    calculateAverageMood H = averageScoreSpec H ∧ (H = [] → calculateAverageMood H = 0) := by
  constructor
  · unfold calculateAverageMood averageScoreSpec roundToOneDecimal meanValue
    split
    · rfl
    · congr 2
      push_cast
      rw [List.map_map]
      rfl
  · intro hH; subst hH; rfl

/-- C3, witness: the theorem applied to a 3-entry history (values 5, 4, 4,
mean 13/3, rounded to 4.3) and the concrete values checked. -/
theorem c3_average_is_rounded_mean_witness :
    ([⟨0, "😊 Happy", 5⟩, ⟨1, "😌 Calm", 4⟩, ⟨2, "🙂 Neutral", 4⟩] : List MoodEntry).length ≤ 7 ∧
    (calculateAverageMood [⟨0, "😊 Happy", 5⟩, ⟨1, "😌 Calm", 4⟩, ⟨2, "🙂 Neutral", 4⟩] =
        averageScoreSpec [⟨0, "😊 Happy", 5⟩, ⟨1, "😌 Calm", 4⟩, ⟨2, "🙂 Neutral", 4⟩] ∧
      (([⟨0, "😊 Happy", 5⟩, ⟨1, "😌 Calm", 4⟩, ⟨2, "🙂 Neutral", 4⟩] : List MoodEntry) = [] →
        calculateAverageMood [⟨0, "😊 Happy", 5⟩, ⟨1, "😌 Calm", 4⟩, ⟨2, "🙂 Neutral", 4⟩] = 0)) ∧
    calculateAverageMood [⟨0, "😊 Happy", 5⟩, ⟨1, "😌 Calm", 4⟩, ⟨2, "🙂 Neutral", 4⟩] = 43 / 10 ∧
    calculateAverageMood [] = 0 :=
  ⟨by decide, c3_average_is_rounded_mean _ (by decide),
    by norm_num [calculateAverageMood, round_eq], by norm_num [calculateAverageMood]⟩

/-! ## Streak (`Dashboard.tsx`, `calculateStreak`) -/

/-- Function `calculateStreak` of `Dashboard.tsx` lines 39–53: walk the
recorded dates (most recent first); while each equals the expected calendar
day (`currentDate`, starting at today and moving back one day per hit),
count it; stop at the first mismatch. -/
def calculateStreak (today : Int) (dates : List Int) : Nat :=
  match dates with
  | [] => 0
  | d :: ds => if d = today then calculateStreak (today - 1) ds + 1 else 0

/-- C4: for every list of distinct recorded dates ordered most-recent first
(strictly descending, none in the future), the streak counts exactly the
consecutive calendar days ending at today: every day in the counted range is
present, and the first day past the count is missing. In particular, with no
record for today the streak is 0, however full the earlier days are. -/
theorem c4_streak_counts_consecutive_days (today : Int) (dates : List Int)
    (hsorted : dates.Pairwise (· > ·)) (hle : ∀ x ∈ dates, x ≤ today) :
    (∀ i : ℕ, i < calculateStreak today dates → today - i ∈ dates) ∧
    (today - (calculateStreak today dates : ℤ)) ∉ dates := by
  induction dates generalizing today with
  | nil => simp [calculateStreak]
  | cons d ds ih =>
    rcases List.pairwise_cons.mp hsorted with ⟨hd, hds⟩
    by_cases hdt : d = today
    · subst hdt
      have hle' : ∀ x ∈ ds, x ≤ d - 1 := fun x hx => by have := hd x hx; omega
      obtain ⟨ih1, ih2⟩ := ih (d - 1) hds hle'
      rw [calculateStreak, if_pos rfl]
      constructor
      · intro i hi
        match i with
        | 0 => simp
        | j + 1 =>
          have hj : j < calculateStreak (d - 1) ds := by omega
          have hmem := ih1 j hj
          have heq : d - ((j : ℕ) + 1 : ℕ) = d - 1 - (j : ℤ) := by push_cast; ring
          rw [heq]
          exact List.mem_cons_of_mem _ hmem
      · intro hmem
        rcases List.mem_cons.mp hmem with h | h
        · push_cast at h; omega
        · apply ih2
          have heq : d - 1 - (calculateStreak (d - 1) ds : ℤ) =
              d - ((calculateStreak (d - 1) ds + 1 : ℕ) : ℤ) := by push_cast; ring
          rw [heq]
          exact h
    · rw [calculateStreak, if_neg hdt]
      constructor
      · intro i hi; omega
      · intro hmem
        simp only [Nat.cast_zero, sub_zero] at hmem
        rcases List.mem_cons.mp hmem with h | h
        · exact hdt h.symm
        · have h1 := hd _ h
          have h2 := hle d (List.mem_cons_self d ds)
          omega

/-- C4, witness: records for today (day 10), yesterday and the day before
with a gap at day 6 give streak 3 (checked by evaluation and covered by the
theorem), and a fully populated week missing only today gives streak 0. -/
theorem c4_streak_counts_consecutive_days_witness :
    calculateStreak 10 [10, 9, 8, 6] = 3 ∧
    calculateStreak 10 [9, 8, 7, 6, 5, 4, 3] = 0 ∧
    ((∀ i : ℕ, i < calculateStreak 10 [10, 9, 8, 6] → (10 : ℤ) - i ∈ [10, 9, 8, 6]) ∧
      ((10 : ℤ) - (calculateStreak 10 [10, 9, 8, 6] : ℤ)) ∉ [(10 : ℤ), 9, 8, 6]) :=
  ⟨by decide, by decide, c4_streak_counts_consecutive_days 10 [10, 9, 8, 6] (by decide) (by decide)⟩

/-! ## Per-day merge and 7-entry cap (`Insights.tsx`, `updateFromStorage`) -/

/-- The history update applied by `updateFromStorage` in `Insights.tsx`
lines 63–70: drop any existing entry for today's date
(`prev.filter((d) => d.date !== today)`), keep the last six of the rest
(`filtered.slice(-6)`, i.e. drop all but the final 6), and append today's
entry. -/
def updateFromStorage (prev : List MoodEntry) (todayMood : MoodEntry) : List MoodEntry :=
  let filtered := prev.filter (fun d => decide (d.date ≠ todayMood.date))
  filtered.drop (filtered.length - 6) ++ [todayMood]

/-- The part of the previous history that `updateFromStorage` keeps. -/
def keptPart (prev : List MoodEntry) (e : MoodEntry) : List MoodEntry :=
  (prev.filter (fun d => decide (d.date ≠ e.date))).drop
    ((prev.filter (fun d => decide (d.date ≠ e.date))).length - 6)

theorem updateFromStorage_eq (prev : List MoodEntry) (e : MoodEntry) :
    updateFromStorage prev e = keptPart prev e ++ [e] := rfl

theorem keptPart_date_ne {prev : List MoodEntry} {e x : MoodEntry}
    (hx : x ∈ keptPart prev e) : x.date ≠ e.date := by
  have h1 : x ∈ prev.filter (fun d => decide (d.date ≠ e.date)) :=
    (List.drop_sublist _ _).mem hx
  have h2 := List.of_mem_filter h1
  simpa using h2

theorem keptPart_length_le (prev : List MoodEntry) (e : MoodEntry) :
    (keptPart prev e).length ≤ 6 := by
  unfold keptPart
  simp only [List.length_drop]
  omega

theorem keptPart_sublist (prev : List MoodEntry) (e : MoodEntry) :
    (keptPart prev e).Sublist prev :=
  (List.drop_sublist _ _).trans (List.filter_sublist _)

theorem filter_ne_of_fresh {l : List MoodEntry} {e : MoodEntry}
    (h : ∀ x ∈ l, x.date ≠ e.date) :
    l.filter (fun d => decide (d.date ≠ e.date)) = l := by
  rw [List.filter_eq_self]
  intro a ha
  simpa using h a ha

theorem updateFromStorage_fresh {prev : List MoodEntry} {e : MoodEntry}
    (h : ∀ x ∈ prev, x.date ≠ e.date) :
    updateFromStorage prev e = prev.drop (prev.length - 6) ++ [e] := by
  rw [updateFromStorage_eq, keptPart, filter_ne_of_fresh h]

/-- C5: the merge is idempotent (recording the same entry twice leaves the
history of the first recording), last-write-wins (after recording A then B
for the same date, the history's entries for that date are exactly `[B]`),
and it preserves the at-most-one-record-per-date invariant. -/
theorem c5_last_write_wins (prev : List MoodEntry) (A B : MoodEntry) (hAB : A.date = B.date) :
    (updateFromStorage (updateFromStorage prev A) A = updateFromStorage prev A) ∧
    ((updateFromStorage (updateFromStorage prev A) B).filter
        (fun d => decide (d.date = A.date)) = [B]) ∧
    (∀ D : ℤ, prev.countP (fun d => decide (d.date = D)) ≤ 1 →
      (updateFromStorage prev A).countP (fun d => decide (d.date = D)) ≤ 1) := by
  refine ⟨?_, ?_, ?_⟩
  · have hstep : keptPart (updateFromStorage prev A) A = keptPart prev A := by
      unfold keptPart
      conv_lhs => rw [updateFromStorage_eq, List.filter_append]
      rw [filter_ne_of_fresh (fun x hx => keptPart_date_ne hx)]
      have hA : ([A].filter (fun d => decide (d.date ≠ A.date))) = [] := by simp
      rw [hA, List.append_nil]
      rw [Nat.sub_eq_zero_of_le (keptPart_length_le prev A), List.drop_zero]
      rfl
    rw [updateFromStorage_eq (updateFromStorage prev A) A, hstep, updateFromStorage_eq]
  · rw [updateFromStorage_eq (updateFromStorage prev A) B, List.filter_append]
    have h1 : (keptPart (updateFromStorage prev A) B).filter
        (fun d => decide (d.date = A.date)) = [] := by
      rw [List.filter_eq_nil_iff]
      intro a ha
      have := keptPart_date_ne ha
      simp only [decide_eq_true_eq]
      rw [hAB]
      exact this
    have h2 : ([B].filter (fun d => decide (d.date = A.date))) = [B] := by
      simp [hAB.symm]
    rw [h1, h2, List.nil_append]
  · intro D hD
    rw [updateFromStorage_eq, List.countP_append]
    by_cases hcase : A.date = D
    · have hg : (keptPart prev A).countP (fun d => decide (d.date = D)) = 0 := by
        rw [List.countP_eq_zero]
        intro a ha
        have := keptPart_date_ne ha
        simp only [decide_eq_true_eq]
        rw [← hcase]
        exact this
      have hA : ([A].countP (fun d => decide (d.date = D))) = 1 := by simp [hcase]
      omega
    · have hA : ([A].countP (fun d => decide (d.date = D))) = 0 := by simp [hcase]
      have hg : (keptPart prev A).countP (fun d => decide (d.date = D)) ≤
          prev.countP (fun d => decide (d.date = D)) :=
        (keptPart_sublist prev A).countP_le _
      omega

/-- C5, witness: the theorem at a concrete one-entry history with two
same-date samples A and B, plus the resulting histories evaluated. -/
theorem c5_last_write_wins_witness :
    ((⟨2, "😔 Sad", 2⟩ : MoodEntry).date = (⟨2, "😡 Angry", 1⟩ : MoodEntry).date) ∧
    ((updateFromStorage (updateFromStorage [⟨1, "😊 Happy", 4⟩] ⟨2, "😔 Sad", 2⟩) ⟨2, "😔 Sad", 2⟩ =
        updateFromStorage [⟨1, "😊 Happy", 4⟩] ⟨2, "😔 Sad", 2⟩) ∧
      ((updateFromStorage (updateFromStorage [⟨1, "😊 Happy", 4⟩] ⟨2, "😔 Sad", 2⟩)
          ⟨2, "😡 Angry", 1⟩).filter
          (fun d => decide (d.date = (⟨2, "😔 Sad", 2⟩ : MoodEntry).date)) = [⟨2, "😡 Angry", 1⟩]) ∧
      (∀ D : ℤ, ([⟨1, "😊 Happy", 4⟩] : List MoodEntry).countP
          (fun d => decide (d.date = D)) ≤ 1 →
        (updateFromStorage [⟨1, "😊 Happy", 4⟩] ⟨2, "😔 Sad", 2⟩).countP
          (fun d => decide (d.date = D)) ≤ 1)) :=
  ⟨rfl, c5_last_write_wins [⟨1, "😊 Happy", 4⟩] ⟨2, "😔 Sad", 2⟩ ⟨2, "😡 Angry", 1⟩ rfl⟩

/-- C6: the history produced by the merge never exceeds 7 entries, and
recording entries for pairwise-distinct dates starting from the empty
history keeps exactly the most recently recorded 7, evicting the oldest
first (the result is the suffix of the recording sequence of length at most
7). -/
theorem c6_seven_day_cap_evicts_oldest :
    (∀ (prev : List MoodEntry) (e : MoodEntry), (updateFromStorage prev e).length ≤ 7) ∧
    (∀ es : List MoodEntry, es.Pairwise (fun a b => a.date ≠ b.date) →
      es.foldl updateFromStorage [] = es.drop (es.length - 7)) := by
  constructor
  · intro prev e
    rw [updateFromStorage_eq]
    have := keptPart_length_le prev e
    simp only [List.length_append, List.length_cons, List.length_nil]
    omega
  · intro es hes
    induction es using List.reverseRecOn with
    | nil => simp
    | append_singleton es e ih =>
      rw [List.pairwise_append] at hes
      obtain ⟨h1, _, h3⟩ := hes
      rw [List.foldl_append, List.foldl_cons, List.foldl_nil, ih h1]
      have hfresh : ∀ x ∈ es.drop (es.length - 7), x.date ≠ e.date := by
        intro x hx
        exact h3 x ((List.drop_sublist _ _).mem hx) e (List.mem_singleton_self e)
      rw [updateFromStorage_fresh hfresh, List.drop_drop, List.length_drop]
      have hle : (es ++ [e]).length - 7 ≤ es.length := by
        simp only [List.length_append, List.length_singleton]
        omega
      rw [List.drop_append_of_le_length hle]
      congr 2
      simp only [List.length_append, List.length_singleton]
      omega

/-- C6, witness: recording nine distinct ascending dates into an empty
history leaves exactly the last seven, the first two evicted; and one
update step obeys the 7-entry bound. -/
theorem c6_seven_day_cap_evicts_oldest_witness :
    ([⟨1, "a", 1⟩, ⟨2, "b", 2⟩, ⟨3, "c", 3⟩, ⟨4, "d", 4⟩, ⟨5, "e", 5⟩, ⟨6, "f", 1⟩,
        ⟨7, "g", 2⟩, ⟨8, "h", 3⟩, ⟨9, "i", 4⟩] : List MoodEntry).Pairwise
      (fun a b => a.date ≠ b.date) ∧
    ([⟨1, "a", 1⟩, ⟨2, "b", 2⟩, ⟨3, "c", 3⟩, ⟨4, "d", 4⟩, ⟨5, "e", 5⟩, ⟨6, "f", 1⟩,
        ⟨7, "g", 2⟩, ⟨8, "h", 3⟩, ⟨9, "i", 4⟩] : List MoodEntry).foldl updateFromStorage [] =
      [⟨3, "c", 3⟩, ⟨4, "d", 4⟩, ⟨5, "e", 5⟩, ⟨6, "f", 1⟩, ⟨7, "g", 2⟩, ⟨8, "h", 3⟩,
        ⟨9, "i", 4⟩] ∧
    (updateFromStorage [] ⟨1, "a", 1⟩).length ≤ 7 := by
  refine ⟨by decide, ?_, c6_seven_day_cap_evicts_oldest.1 [] ⟨1, "a", 1⟩⟩
  have h := c6_seven_day_cap_evicts_oldest.2
    [⟨1, "a", 1⟩, ⟨2, "b", 2⟩, ⟨3, "c", 3⟩, ⟨4, "d", 4⟩, ⟨5, "e", 5⟩, ⟨6, "f", 1⟩,
      ⟨7, "g", 2⟩, ⟨8, "h", 3⟩, ⟨9, "i", 4⟩] (by decide)
  simpa using h

/-! ## Remote-inference score mapping (`Zenora.tsx`, `handleSendMessage`) -/

/-- The score computed from a remote emotion intensity in `Zenora.tsx`
line 183: `Math.min(100, Math.max(0, 100 - intensity * 10))`. -/
def remoteMoodScore (intensity : Int) : Int :=
  min 100 (max 0 (100 - intensity * 10))

/-- Clamp of `x` into `[lo, hi]`, as the specification words it. -/
def clamp (lo hi x : Int) : Int := max lo (min hi x)

/-- C7: for every integer intensity the recorded score is
`clamp(0, 100, 100 - intensity*10)`, hence always within `[0, 100]`. -/
theorem c7_remote_score_clamped (i : Int) :
    remoteMoodScore i = clamp 0 100 (100 - i * 10) ∧
    0 ≤ remoteMoodScore i ∧ remoteMoodScore i ≤ 100 := by
  unfold remoteMoodScore clamp
  omega

/-! ## Current-mood payload (`MoodContext.tsx`, `setMood`) -/

/-- Payload type `MoodPayload` of `MoodContext.tsx`: mood label plus
optional numeric value, source tag, and ISO timestamp. -/
structure MoodPayload where
  mood : String
  value : Option Int
  source : Option String
  «at» : Option String
deriving DecidableEq

/-- Function `setMood` of `MoodContext.tsx` lines 42–47: store the payload
with `at` defaulted to the current time when absent
(`at: m.at ?? new Date().toISOString()`). -/
def setMood (m : MoodPayload) (now : String) : MoodPayload :=
  { m with «at» := some (m.«at».getD now) }

/-- C10: a payload stored through `setMood` always carries a timestamp:
when the caller omits `at` the stored `at` is the current time, and for
every payload the stored `at` is defined. -/
theorem c10_setMood_defaults_timestamp (m : MoodPayload) (now : String)
    (h : m.«at» = none) :
    (setMood m now).«at» = some now ∧
    ∀ m2 : MoodPayload, ((setMood m2 now).«at»).isSome = true := by
  constructor
  · simp [setMood, h]
  · intro m2; simp [setMood]

/-- C10, witness: the theorem at a payload with no timestamp. -/
theorem c10_setMood_defaults_timestamp_witness :
    (MoodPayload.mk "happy" (some 4) (some "manual") none).«at» = none ∧
    (setMood (MoodPayload.mk "happy" (some 4) (some "manual") none)
        "2025-01-01T00:00:00.000Z").«at» = some "2025-01-01T00:00:00.000Z" :=
  ⟨rfl, (c10_setMood_defaults_timestamp _ "2025-01-01T00:00:00.000Z" rfl).1⟩

/-! ## JSON serialization of the persisted mood record (`zenora-mood` key) -/



/-- Decimal digits of `n`, most significant first, with explicit fuel so the
definition is structurally recursive (and hence kernel-computable). -/
def natDigitsAux : Nat → Nat → List Char
  | 0, _ => []
  | fuel + 1, n =>
    if n < 10 then [Nat.digitChar n]
    else natDigitsAux fuel (n / 10) ++ [Nat.digitChar (n % 10)]

/-- JS `String(n)` for `n : ℕ`. `n + 1` units of fuel always suffice. -/
def printNat (n : Nat) : List Char := natDigitsAux (n + 1) n

def digitStep (a : Nat) (c : Char) : Nat := a * 10 + (c.toNat - 48)

def readDigits : List Char → Nat → Nat × List Char
  | [], acc => (acc, [])
  | c :: r, acc => if c.isDigit then readDigits r (digitStep acc c) else (acc, c :: r)

def parseNat (l : List Char) : Option (Nat × List Char) :=
  match l with
  | [] => none
  | c :: r => if c.isDigit then some (readDigits r (digitStep 0 c)) else none

/-- The next character (if any) is not a decimal digit. -/
def notDigitStart : List Char → Bool
  | [] => true
  | c :: _ => !c.isDigit

theorem readDigits_append (ds rest : List Char) (acc : Nat)
    (hds : ∀ c ∈ ds, c.isDigit = true) (hrest : notDigitStart rest = true) :
    readDigits (ds ++ rest) acc = (ds.foldl digitStep acc, rest) := by
  induction ds generalizing acc with
  | nil =>
    simp only [List.nil_append, List.foldl_nil]
    cases rest with
    | nil => rfl
    | cons c r =>
      simp only [notDigitStart, Bool.not_eq_true'] at hrest
      simp [readDigits, hrest]
  | cons c ds ih =>
    have hc : c.isDigit = true := hds c (List.mem_cons_self c ds)
    simp only [List.cons_append, readDigits, hc, if_true, List.foldl_cons]
    exact ih _ (fun x hx => hds x (List.mem_cons_of_mem c hx))

theorem digitChar_isDigit (d : Nat) (hd : d < 10) : (Nat.digitChar d).isDigit = true := by
  interval_cases d <;> decide

theorem digitChar_val (d : Nat) (hd : d < 10) : (Nat.digitChar d).toNat - 48 = d := by
  interval_cases d <;> decide

theorem natDigitsAux_digits (fuel n : Nat) :
    ∀ c ∈ natDigitsAux fuel n, c.isDigit = true := by
  induction fuel generalizing n with
  | zero => intro c hc; simp [natDigitsAux] at hc
  | succ f ih =>
    intro c hc
    rw [natDigitsAux] at hc
    split at hc
    · rename_i h
      simp only [List.mem_singleton] at hc
      subst hc
      exact digitChar_isDigit n h
    · rcases List.mem_append.mp hc with h | h
      · exact ih _ c h
      · simp only [List.mem_singleton] at h
        subst h
        exact digitChar_isDigit _ (Nat.mod_lt n (by norm_num))

theorem printNat_ne_nil (n : Nat) : printNat n ≠ [] := by
  unfold printNat natDigitsAux
  split <;> simp

theorem foldl_natDigitsAux (fuel n : Nat) (h : n < 10 ^ fuel) :
    (natDigitsAux fuel n).foldl digitStep 0 = n := by
  induction fuel generalizing n with
  | zero =>
    simp only [pow_zero, Nat.lt_one_iff] at h
    subst h
    rfl
  | succ f ih =>
    rw [natDigitsAux]
    split
    · rename_i hn
      simp only [List.foldl_cons, List.foldl_nil, digitStep, digitChar_val n hn]
      omega
    · rename_i hn
      have hdiv : n / 10 < 10 ^ f := by
        rw [Nat.div_lt_iff_lt_mul (by norm_num)]
        rw [pow_succ] at h
        exact h
      rw [List.foldl_append, ih _ hdiv]
      simp only [List.foldl_cons, List.foldl_nil, digitStep,
        digitChar_val _ (Nat.mod_lt n (by norm_num))]
      omega

theorem foldl_printNat (n : Nat) : (printNat n).foldl digitStep 0 = n := by
  apply foldl_natDigitsAux
  have h1 : n < 2 ^ n := Nat.lt_two_pow n
  have h2 : 2 ^ n ≤ 10 ^ n := Nat.pow_le_pow_left (by norm_num) n
  have h3 : (10 : Nat) ^ n ≤ 10 ^ (n + 1) := Nat.pow_le_pow_right (by norm_num) (by omega)
  omega

theorem printNat_isDigit (n : Nat) : ∀ c ∈ printNat n, c.isDigit = true :=
  natDigitsAux_digits (n + 1) n

theorem parseNat_printNat (n : Nat) (rest : List Char) (hrest : notDigitStart rest = true) :
    parseNat (printNat n ++ rest) = some (n, rest) := by
  obtain ⟨c, t, hct⟩ : ∃ c t, printNat n = c :: t := by
    cases h : printNat n with
    | nil => exact absurd h (printNat_ne_nil n)
    | cons c t => exact ⟨c, t, rfl⟩
  have hc : c.isDigit = true := printNat_isDigit n c (hct ▸ List.mem_cons_self c t)
  have ht : ∀ x ∈ t, x.isDigit = true := fun x hx =>
    printNat_isDigit n x (hct ▸ List.mem_cons_of_mem c hx)
  rw [hct, List.cons_append, parseNat, if_pos hc, readDigits_append t rest _ ht hrest]
  have hfold : t.foldl digitStep (digitStep 0 c) = (printNat n).foldl digitStep 0 := by
    rw [hct, List.foldl_cons]
  rw [hfold, foldl_printNat]

/-- JS `String(i)` for an integer-valued number. -/
def printInt (i : Int) : List Char :=
  if i < 0 then '-' :: printNat (-i).toNat else printNat i.toNat

def parseInt (l : List Char) : Option (Int × List Char) :=
  match l with
  | [] => none
  | c :: r =>
    if c = '-' then (parseNat r).map (fun p => (-(p.1 : Int), p.2))
    else (parseNat (c :: r)).map (fun p => ((p.1 : Int), p.2))

theorem parseInt_printInt (i : Int) (rest : List Char) (hrest : notDigitStart rest = true) :
    parseInt (printInt i ++ rest) = some (i, rest) := by
  unfold printInt
  split
  · rename_i hneg
    rw [List.cons_append, parseInt, if_pos rfl, parseNat_printNat _ _ hrest]
    have hval : (-(((-i).toNat : Nat) : Int)) = i := by omega
    rw [Option.map_some', hval]
  · rename_i hpos
    obtain ⟨c, t, hct⟩ : ∃ c t, printNat i.toNat = c :: t := by
      cases h : printNat i.toNat with
      | nil => exact absurd h (printNat_ne_nil _)
      | cons c t => exact ⟨c, t, rfl⟩
    have hc : c.isDigit = true := printNat_isDigit _ c (hct ▸ List.mem_cons_self c t)
    have hcm : c ≠ '-' := by
      intro h
      subst h
      simp [Char.isDigit] at hc
    rw [hct, List.cons_append, parseInt, if_neg hcm, ← List.cons_append, ← hct,
      parseNat_printNat _ _ hrest]
    have hval : ((i.toNat : Nat) : Int) = i := by omega
    rw [Option.map_some', hval]



def hexVal (c : Char) : Option Nat :=
  if c.isDigit then some (c.toNat - 48)
  else if 'a' ≤ c ∧ c ≤ 'f' then some (c.toNat - 87)
  else if 'A' ≤ c ∧ c ≤ 'F' then some (c.toNat - 55)
  else none

/-- JSON escaping of one character, as `JSON.stringify` performs it. -/
def escChar (c : Char) : List Char :=
  if c = '"' then ['\\', '"']
  else if c = '\\' then ['\\', '\\']
  else if c = '\n' then ['\\', 'n']
  else if c = '\t' then ['\\', 't']
  else if c = '\r' then ['\\', 'r']
  else if c = '\x08' then ['\\', 'b']
  else if c = '\x0c' then ['\\', 'f']
  else if c.toNat < 32 then
    ['\\', 'u', '0', '0', Nat.digitChar (c.toNat / 16), Nat.digitChar (c.toNat % 16)]
  else [c]

def escapeList (s : List Char) : List Char :=
  s.foldr (fun c acc => escChar c ++ acc) []

def unescChar (e : Char) : Option Char :=
  if e = '"' then some '"'
  else if e = '\\' then some '\\'
  else if e = '/' then some '/'
  else if e = 'n' then some '\n'
  else if e = 't' then some '\t'
  else if e = 'r' then some '\r'
  else if e = 'b' then some '\x08'
  else if e = 'f' then some '\x0c'
  else none

/-- Parse a JSON string body (after the opening quote) up to and including the
closing quote; returns the decoded characters and the remaining input. -/
def parseStrBody : List Char → Option (List Char × List Char)
  | [] => none
  | '"' :: r => some ([], r)
  | '\\' :: 'u' :: h1 :: h2 :: h3 :: h4 :: r =>
    match hexVal h1, hexVal h2, hexVal h3, hexVal h4 with
    | some a, some b, some x, some d =>
      (parseStrBody r).map (fun p => (Char.ofNat (((a * 16 + b) * 16 + x) * 16 + d) :: p.1, p.2))
    | _, _, _, _ => none
  | '\\' :: e :: r =>
    match unescChar e with
    | some c2 => (parseStrBody r).map (fun p => (c2 :: p.1, p.2))
    | none => none
  | c :: r => (parseStrBody r).map (fun p => (c :: p.1, p.2))


theorem parseStrBody_escape (s rest : List Char) :
    parseStrBody (escapeList s ++ '"' :: rest) = some (s, rest) := by
  induction s with
  | nil => rfl
  | cons c s ih =>
    have hesc : escapeList (c :: s) = escChar c ++ escapeList s := rfl
    rw [hesc, List.append_assoc]
    unfold escChar
    by_cases h1 : c = '"'
    · subst h1; simp [parseStrBody, unescChar, ih]
    by_cases h2 : c = '\\'
    · subst h2
      simp only [h1, if_false, ite_false, if_neg]
      simpa [parseStrBody, unescChar] using ih
    by_cases h3 : c = '\n'
    · subst h3
      simp only [reduceIte, List.cons_append, List.nil_append]
      simpa [parseStrBody, unescChar] using ih
    by_cases h4 : c = '\t'
    · subst h4
      simp only [reduceIte, List.cons_append, List.nil_append]
      simpa [parseStrBody, unescChar] using ih
    by_cases h5 : c = '\r'
    · subst h5
      simp only [reduceIte, List.cons_append, List.nil_append]
      simpa [parseStrBody, unescChar] using ih
    by_cases h6 : c = '\x08'
    · subst h6
      simp only [reduceIte, List.cons_append, List.nil_append]
      simpa [parseStrBody, unescChar] using ih
    by_cases h7 : c = '\x0c'
    · subst h7
      simp only [reduceIte, List.cons_append, List.nil_append]
      simpa [parseStrBody, unescChar] using ih
    by_cases h8 : c.toNat < 32
    · simp only [h1, h2, h3, h4, h5, h6, h7, h8, if_true, if_false, ite_false, ite_true,
        List.cons_append, List.nil_append]
      have hx2 : hexVal (Nat.digitChar (c.toNat / 16)) = some (c.toNat / 16) := by
        have hdiv : c.toNat / 16 < 10 := by omega
        interval_cases h : (c.toNat / 16) <;> decide
      have hx3 : hexVal (Nat.digitChar (c.toNat % 16)) = some (c.toNat % 16) := by
        have hmod : c.toNat % 16 < 16 := Nat.mod_lt _ (by norm_num)
        interval_cases h : (c.toNat % 16) <;> decide
      rw [parseStrBody, hx2, hx3]
      have hx1 : hexVal '0' = some 0 := by decide
      rw [hx1]
      simp only [ih, Option.map_some']
      have hval : ((0 * 16 + 0) * 16 + c.toNat / 16) * 16 + c.toNat % 16 = c.toNat := by omega
      rw [hval, Char.ofNat_toNat]
    · simp only [h1, h2, h3, h4, h5, h6, h7, h8, if_false, ite_false, List.cons_append,
        List.nil_append]
      rw [parseStrBody.eq_def]
      split
      · rename_i heq; simp at heq
      · rename_i heq; injection heq with hc hr; exact absurd hc h1
      · rename_i heq; injection heq with hc hr; exact absurd hc h2
      · rename_i heq; injection heq with hc hr; exact absurd hc h2
      · rename_i heq
        injection heq with hc hr
        subst hc
        rw [← hr]
        simp [ih]

/-- One JSON string literal, quotes and escaping included. -/
def encodeStr (s : String) : List Char :=
  '"' :: escapeList s.data ++ ['"']

/-- Comma-separated JSON string literals (the body of a string array). -/
def encodeStrList : List String → List Char
  | [] => []
  | [s] => encodeStr s
  | s :: ss => encodeStr s ++ ',' :: encodeStrList ss

/-- Parse the body of a JSON string array after the opening bracket, up to and
including the closing bracket. `fuel` bounds the number of elements; the
callers pass the input length, which always suffices. -/
def parseStrList : Nat → List Char → Option (List String × List Char)
  | _, ']' :: r => some ([], r)
  | fuel + 1, '"' :: r =>
    match parseStrBody r with
    | some (s, r2) =>
      match r2 with
      | ']' :: r3 => some ([String.mk s], r3)
      | ',' :: r3 =>
        match parseStrList fuel r3 with
        | some (ss, r4) => some (String.mk s :: ss, r4)
        | none => none
      | _ => none
    | none => none
  | _, _ => none

theorem parseStrList_encode (ss : List String) (rest : List Char) :
    ∀ fuel, ss.length + 1 ≤ fuel →
      parseStrList fuel (encodeStrList ss ++ ']' :: rest) = some (ss, rest) := by
  induction ss with
  | nil =>
    intro fuel hfuel
    simp [encodeStrList, parseStrList]
  | cons s ss ih =>
    intro fuel hfuel
    obtain ⟨f, rfl⟩ : ∃ f, fuel = f + 1 := ⟨fuel - 1, by omega⟩
    cases ss with
    | nil =>
      have henc : encodeStrList [s] = encodeStr s := rfl
      rw [henc, encodeStr]
      have harr : ('"' :: escapeList s.data ++ ['"']) ++ ']' :: rest =
          '"' :: (escapeList s.data ++ '"' :: (']' :: rest)) := by simp
      rw [harr]
      simp only [parseStrList, parseStrBody_escape]
    | cons s2 ss2 =>
      have henc : encodeStrList (s :: s2 :: ss2) =
          encodeStr s ++ ',' :: encodeStrList (s2 :: ss2) := rfl
      rw [henc, encodeStr]
      have harr : (('"' :: escapeList s.data ++ ['"']) ++
            ',' :: encodeStrList (s2 :: ss2)) ++ ']' :: rest =
          '"' :: (escapeList s.data ++ '"' ::
            (',' :: (encodeStrList (s2 :: ss2) ++ ']' :: rest))) := by simp
      rw [harr]
      have hih := ih f (by simp only [List.length_cons] at hfuel ⊢; omega)
      simp only [parseStrList, parseStrBody_escape, hih]

structure MoodData where
  moodScore : Int
  todayMood : String
  motivation : List String
deriving DecidableEq

def expectLit : List Char → List Char → Option (List Char)
  | [], l => some l
  | _ :: _, [] => none
  | c :: cs, x :: xs => if x = c then expectLit cs xs else none

theorem expectLit_append (lit rest : List Char) :
    expectLit lit (lit ++ rest) = some rest := by
  induction lit with
  | nil => rfl
  | cons c cs ih => simp [expectLit, ih]

/-- Model of `JSON.stringify` for a `MoodData` record (keys in insertion order
`moodScore`, `todayMood`, `motivation`, as the object literals in the code
construct them). -/
def encodeMoodData (m : MoodData) : List Char :=
  "\x7b\"moodScore\":".data ++ (printInt m.moodScore
    ++ (",\"todayMood\":\"".data ++ (escapeList m.todayMood.data
    ++ ("\",\"motivation\":[".data ++ (encodeStrList m.motivation
    ++ "]\x7d".data)))))

/-- Model of `JSON.parse` restricted to the exact shape `JSON.stringify` produces for
a `MoodData` record (a sufficient model, since the code only ever parses
values it previously stringified). -/
def decodeMoodData (l : List Char) : Option MoodData :=
  match expectLit "\x7b\"moodScore\":".data l with
  | none => none
  | some r1 =>
    match parseInt r1 with
    | none => none
    | some (score, r2) =>
      match expectLit ",\"todayMood\":\"".data r2 with
      | none => none
      | some r3 =>
        match parseStrBody r3 with
        | none => none
        | some (mood, r4) =>
          match expectLit ",\"motivation\":[".data r4 with
          | none => none
          | some r5 =>
            match parseStrList r5.length r5 with
            | none => none
            | some (motiv, r6) =>
              match r6 with
              | ['\x7d'] => some ⟨score, String.mk mood, motiv⟩
              | _ => none

theorem length_encodeStrList_ge (ss : List String) :
    ss.length ≤ (encodeStrList ss).length := by
  induction ss with
  | nil => simp [encodeStrList]
  | cons s ss ih =>
    cases ss with
    | nil => simp [encodeStrList, encodeStr]
    | cons s2 ss2 =>
      have henc : encodeStrList (s :: s2 :: ss2) =
          encodeStr s ++ ',' :: encodeStrList (s2 :: ss2) := rfl
      rw [henc]
      simp only [List.length_append, List.length_cons, encodeStr]
      simp only [List.length_cons] at ih ⊢
      omega

theorem decode_encode_moodData (m : MoodData) :
    decodeMoodData (encodeMoodData m) = some m := by
  have h4 : "\",\"motivation\":[".data ++ (encodeStrList m.motivation
      ++ "]\x7d".data) =
      '"' :: (",\"motivation\":[".data ++ (encodeStrList m.motivation
      ++ "]\x7d".data)) := rfl
  have h6 : "]\x7d".data = ']' :: ['\x7d'] := rfl
  rw [encodeMoodData, decodeMoodData]
  simp only [expectLit_append, h4, h6]
  have h2 : notDigitStart ([',', '"', 't', 'o', 'd', 'a', 'y', 'M', 'o', 'o', 'd', '"',
      ':', '"'] ++ (escapeList m.todayMood.data ++ '"' ::
      ([',', '"', 'm', 'o', 't', 'i', 'v', 'a', 't', 'i', 'o', 'n', '"', ':', '['] ++
        (encodeStrList m.motivation ++ [']', '\x7d'])))) = true := rfl
  simp only [parseInt_printInt _ _ h2, expectLit_append, parseStrBody_escape]
  have hfuel : m.motivation.length + 1 ≤
      (encodeStrList m.motivation ++ [']', '\x7d']).length := by
    simp only [List.length_append, List.length_cons]
    have := length_encodeStrList_ge m.motivation
    omega
  simp only [parseStrList_encode _ _ _ hfuel]


/-! ## Durable per-browser storage and the reload pipeline -/

/-- Model of `localStorage`: an association list where the most recent write
for a key shadows earlier ones. -/
def Storage : Type := List (String × String)

/-- JS `localStorage.setItem(k, v)`. -/
def setItem (st : Storage) (k v : String) : Storage := (k, v) :: st

/-- JS `localStorage.getItem(k)` (`none` models the `null` result). -/
def getItem (st : Storage) (k : String) : Option String :=
  (List.find? (fun p => p.1 == k) st).map (fun p => p.2)

theorem getItem_setItem (st : Storage) (k v : String) :
    getItem (setItem st k v) k = some v := by
  simp [getItem, setItem, List.find?]

/-- The string `JSON.stringify(moodData)` written under `zenora-mood`
(`Zenora.tsx` lines 84–86). -/
def jsonStringify (m : MoodData) : String := String.mk (encodeMoodData m)

/-- `JSON.parse` of a stored mood string, as an `Option` (`none` models the
thrown `SyntaxError`). -/
def jsonParseMoodData (s : String) : Option MoodData := decodeMoodData s.data

theorem jsonParse_stringify (m : MoodData) :
    jsonParseMoodData (jsonStringify m) = some m :=
  decode_encode_moodData m

/-- Today's history entry built by `updateFromStorage` in `Insights.tsx`
lines 55–61: `value = Math.round((parsed.moodScore / 100) * 5)`,
`mood = parsed.todayMood`, dated today. -/
def toEntry (today : Int) (m : MoodData) : MoodEntry :=
  ⟨today, m.todayMood, round (((m.moodScore : ℚ) / 100) * 5)⟩

theorem updateFromStorage_nil (e : MoodEntry) : updateFromStorage [] e = [e] := rfl

/-- The cold-start run of `Insights.tsx`'s `updateFromStorage` (lines 50–72):
the in-memory history starts empty (`useState([])`), the `zenora-mood` key is
read and parsed, and today's entry derived from it is merged in. If the key
is absent nothing happens. (A present but unparsable value would throw — that
failure branch is modelled by `zenoraLoadMood` below and is never reached on
values the code itself stored.) -/
def reloadFromStorage (st : Storage) (today : Int) : List MoodEntry :=
  match getItem st "zenora-mood" with
  | none => []
  | some s =>
    match jsonParseMoodData s with
    | none => []
    | some m => updateFromStorage [] (toEntry today m)

theorem reload_after_write (st : Storage) (m : MoodData) (today : Int) :
    reloadFromStorage (setItem st "zenora-mood" (jsonStringify m)) today =
      [toEntry today m] := by
  simp only [reloadFromStorage, getItem_setItem, jsonParse_stringify]
  rfl

/-! ## Guarded and unguarded cold-start reads (C8) -/

/-- The guarded cold-start read of `MoodContext.tsx` lines 22–29: parse the
raw stored value inside `try`, returning `null` both when the key is absent
and when parsing throws. Generic in the parsed payload type. -/
def moodProviderInit {α : Type} (parse : String → Option α) (raw : Option String) : Option α :=
  match raw with
  | none => none
  | some s =>
    match parse s with
    | some v => some v
    | none => none

/-- The unguarded load effect of `Zenora.tsx` lines 78–81:
`if (saved) setMoodData(JSON.parse(saved))` with no `try`/`catch`, so a parse
failure propagates as a thrown `SyntaxError` (the `Except.error` branch)
instead of leaving the state untouched. -/
def zenoraLoadMood (saved : Option String) (current : MoodData) : Except String MoodData :=
  match saved with
  | none => Except.ok current
  | some s =>
    match jsonParseMoodData s with
    | some m => Except.ok m
    | none => Except.error "SyntaxError: Unexpected token in JSON"

/-- C8: evaluating the two cold-start readers on a corrupt stored value
(`"not-json\x7b"` is not valid JSON, so parsing fails): the guarded
`MoodProvider` read recovers to the empty state `none` as the claim says,
but Zenora's unguarded `JSON.parse` propagates the thrown `SyntaxError`
rather than yielding the empty state — the code contradicts the claim on
this key. -/
theorem c8_corrupt_storage_crashes_zenora :
    moodProviderInit jsonParseMoodData (some "not-json\x7b") = none ∧
    zenoraLoadMood (some "not-json\x7b")
        ⟨75, "😊 Happy", ["Keep growing every day!", "You're stronger than you think.",
          "Small steps make a big difference."]⟩ =
      Except.error "SyntaxError: Unexpected token in JSON" := by
  constructor
  · decide
  · rfl

/-! ## Persistence round-trip (C9) -/

/-- C9, counterexample: the claim as stated is false. Take the MoodHistory
`[⟨9, "😊 Happy", 4⟩, ⟨10, "😔 Sad", 2⟩]` from a session whose final
`moodData` was `⟨45, "😔 Sad", ["hi"]⟩`: the session persists only that
current `moodData` under `zenora-mood` (never the history list), so the
reload rebuilds a one-entry history — not one identical sample-for-sample to
the two-day history that was held before the reload. -/
theorem c9_history_not_reproduced :
    reloadFromStorage (setItem [] "zenora-mood" (jsonStringify ⟨45, "😔 Sad", ["hi"]⟩)) 10 ≠
      [⟨9, "😊 Happy", 4⟩, ⟨10, "😔 Sad", 2⟩] := by
  intro h
  rw [reload_after_write] at h
  have hlen := congrArg List.length h
  simp at hlen

/-- C9, amended claim: only the current-day record round-trips. For every
`MoodData` value and storage state: serializing it and parsing it back
reproduces it exactly (`JSON.parse ∘ JSON.stringify` identity, over the
concrete character-level codec), reading the key just written returns the
written string, and a reload after the write rebuilds exactly today's entry
derived from it; but the reload pipeline yields at most one history entry
from any storage state, because the multi-day MoodHistory itself is never
persisted. -/
theorem c9_current_record_roundtrip (st : Storage) (m : MoodData) (today : Int) :
    jsonParseMoodData (jsonStringify m) = some m ∧
    getItem (setItem st "zenora-mood" (jsonStringify m)) "zenora-mood" = some (jsonStringify m) ∧
    reloadFromStorage (setItem st "zenora-mood" (jsonStringify m)) today = [toEntry today m] ∧
    (∀ st2 : Storage, (reloadFromStorage st2 today).length ≤ 1) := by
  refine ⟨jsonParse_stringify m, getItem_setItem st _ _, reload_after_write st m today, ?_⟩
  intro st2
  rw [reloadFromStorage]
  cases hg : getItem st2 "zenora-mood" with
  | none => simp
  | some s =>
    cases hp : jsonParseMoodData s with
    | none => simp [hp]
    | some m2 => simp [hp, updateFromStorage_nil]
